import Mathlib

/-!
Verification development for the PyTreeNet TDVP engine and its tree-structure
substrate. Pure functions from the Python sources are embedded as Lean
functions; stateful mutators become functions on explicit state records that
return `Except` values (a Python exception aborts the call and is modelled as
an `.error` result). Machine floats are idealised as real/complex numbers, and
numpy tensors over trees are embedded as finitely supported index functions
with explicit `Finset.range` sums for contracted legs.

Parts of the repository (the TDVP algorithm class, the TTNS state container,
the partial-tree cache and the path planners) are exercised by the test suite
under `src/tests` but their defining modules are not present under `src/`;
those parts are modelled from the specification, and each such definition is
marked `Modelled from the spec:` in its doc comment.
-/

open Finset

/-! ## Tensor trees for the contraction cache (claim C1)

`TTree` describes, from the point of view of one tensor-network site `A`, one
neighbouring subtree of the state/operator tree: every node carries the open
(physical) dimension `od`, for each of its `n` further neighbours (children in
the direction away from `A`) the state bond dimension `bd i` and the
Hamiltonian bond dimension `hd i`, the state tensor `psi` (legs: bond towards
`A`, child bonds, open leg) and the TTNO tensor `ham` (legs: Hamiltonian bond
towards `A`, child Hamiltonian bonds, bra open leg, ket open leg). Index
functions are total on `ℕ`; only indices below the stated dimensions are
summed. -/

inductive TTree : Type where
  | node (od : ℕ) (n : ℕ) (bd hd : Fin n → ℕ)
      (psi : ℕ → (Fin n → ℕ) → ℕ → ℂ)
      (ham : ℕ → (Fin n → ℕ) → ℕ → ℕ → ℂ)
      (ts : Fin n → TTree) : TTree

/-- Modelled from the spec: the partial-tree cache entry (environment tensor)
for a subtree, as built by `contract_any`/`update_tree_cache` of the missing
TDVP modules: the subtree's state tensor, Hamiltonian tensor and conjugated
state tensor are contracted at the node, folding in the already-computed
entries of all neighbours pointing away from the target direction. Its three
free legs are the state bond, Hamiltonian bond and conjugate state bond
towards the site being updated. -/
noncomputable def env : TTree → ℕ → ℕ → ℕ → ℂ
  | .node od _ bd hd psi ham ts, a, b, a1 =>
    ∑ s ∈ Finset.range od, ∑ t ∈ Finset.range od,
      ∑ c ∈ Fintype.piFinset (fun i => Finset.range (bd i)),
        ∑ d ∈ Fintype.piFinset (fun i => Finset.range (hd i)),
          ∑ c1 ∈ Fintype.piFinset (fun i => Finset.range (bd i)),
            psi a c s * ham b d t s * (starRingEnd ℂ) (psi a1 c1 t) *
              ∏ i, env (ts i) (c i) (d i) (c1 i)

/-- Index assignment for one whole subtree: the open (ket and bra) indices of
the node together with, for each child, the state/Hamiltonian/conjugate bond
indices on the connecting edge and recursively an assignment of the child's
subtree. -/
@[reducible] def Asg : TTree → Type
  | .node _ n _ _ _ _ ts => (ℕ × ℕ) × ((i : Fin n) → (ℕ × ℕ × ℕ) × Asg (ts i))

/-- All in-range index assignments of a subtree. -/
def asgs : (t : TTree) → Finset (Asg t)
  | .node od _ bd hd _ _ ts =>
      (Finset.range od ×ˢ Finset.range od) ×ˢ
        Fintype.piFinset (fun i =>
          (Finset.range (bd i) ×ˢ Finset.range (hd i) ×ˢ Finset.range (bd i)) ×ˢ asgs (ts i))

/-- The product of all tensor entries of a subtree at one fixed global index
assignment: state entry times Hamiltonian entry times conjugated state entry
at every node. No sums occur inside; summing `weight` over `asgs` is the
explicit full re-contraction of the subtree. -/
noncomputable def weight : (t : TTree) → ℕ → ℕ → ℕ → Asg t → ℂ
  | .node _ _ _ _ psi ham ts, a, b, a1, g =>
      psi a (fun i => ((g.2 i).1).1) g.1.1 * ham b (fun i => ((g.2 i).1).2.1) g.1.2 g.1.1 *
        (starRingEnd ℂ) (psi a1 (fun i => ((g.2 i).1).2.2) g.1.2) *
        ∏ i, weight (ts i) ((g.2 i).1).1 ((g.2 i).1).2.1 ((g.2 i).1).2.2 ((g.2 i).2)

/-- Modelled from the spec: `effective_site_hamiltonian` for a site `A` with
`n` neighbours, assembled from the cached environment tensors: the site's
TTNO tensor `hamA` (child Hamiltonian bonds, bra open leg, ket open leg) is
contracted with the cache entry of every neighbour pointing into `A`. Matrix
element between ket index `(c, s)` (state bonds and open leg) and bra index
`(c1, t)`; the reshape to a square matrix in the source is this currying. -/
noncomputable def effective_site_hamiltonian (n : ℕ) (hd : Fin n → ℕ)
    (hamA : (Fin n → ℕ) → ℕ → ℕ → ℂ) (ts : Fin n → TTree)
    (c : Fin n → ℕ) (s : ℕ) (c1 : Fin n → ℕ) (t : ℕ) : ℂ :=
  ∑ d ∈ Fintype.piFinset (fun i => Finset.range (hd i)),
    hamA d t s * ∏ i, env (ts i) (c i) (d i) (c1 i)

/-- The explicit full re-contraction of the Hamiltonian and state tensors over
the whole tree excluding the open legs of site `A` itself: one single sum,
over the Hamiltonian bond indices of `A` and over all global index assignments
of all neighbour subtrees jointly, of a pure product of tensor entries. -/
noncomputable def full_contraction_except_site (n : ℕ) (hd : Fin n → ℕ)
    (hamA : (Fin n → ℕ) → ℕ → ℕ → ℂ) (ts : Fin n → TTree)
    (c : Fin n → ℕ) (s : ℕ) (c1 : Fin n → ℕ) (t : ℕ) : ℂ :=
  ∑ d ∈ Fintype.piFinset (fun i => Finset.range (hd i)),
    ∑ G ∈ Fintype.piFinset (fun i => asgs (ts i)),
      hamA d t s * ∏ i, weight (ts i) (c i) (d i) (c1 i) (G i)

/-! ## Update-path, orthogonalization-path and caching-path planners (claim C2)

The tree topology is a rose tree of node identifiers; children appear in the
order stored in the topology. All traversals take an explicit fuel argument
(any fuel at least the height of the tree gives the stable value), keeping the
definitions kernel-computable. -/

inductive RoseTree : Type where
  | node (id : String) (children : List RoseTree) : RoseTree

def nodeId : RoseTree → String
  | .node v _ => v

def childrenOf : RoseTree → List RoseTree
  | .node _ cs => cs

def depthF : ℕ → RoseTree → ℕ
  | 0, _ => 0
  | fuel+1, .node _ cs => 1 + (cs.map (depthF fuel)).foldr Nat.max 0

def maxDepthF (fuel : ℕ) (cs : List RoseTree) : ℕ :=
  (cs.map (depthF fuel)).foldr Nat.max 0

/-- Preorder traversal of a subtree (root first, then children in order); the
order in which a branch hanging off the main path is visited when the sweep
moves away from the root. -/
def downPathF : ℕ → RoseTree → List String
  | 0, _ => []
  | fuel+1, .node v cs => v :: (cs.map (downPathF fuel)).flatten

def nodesListF : ℕ → RoseTree → List String
  | 0, _ => []
  | fuel+1, .node v cs => v :: (cs.map (nodesListF fuel)).flatten

/-- Modelled from the spec: the upward part of the TDVP update path for a
subtree. The sweep starts inside the child subtree of greatest depth (first
such child on ties), visits the remaining child subtrees, and reaches the
subtree root last. -/
def upPathF : ℕ → RoseTree → List String
  | 0, _ => []
  | fuel+1, .node v cs =>
    match cs.dropWhile (fun c => depthF fuel c != maxDepthF fuel cs) with
    | [] => [v]
    | m :: rest =>
      upPathF fuel m ++
        ((cs.takeWhile (fun c => depthF fuel c != maxDepthF fuel cs) ++ rest).map
          (downPathF fuel)).flatten ++ [v]

/-- Modelled from the spec: the TDVP update path, the planner output
`update_path` recorded by the tests. The path ascends from the deepest leaf
to the root and then descends through the root's remaining child subtrees in
preorder. -/
def updatePathF : ℕ → RoseTree → List String
  | 0, _ => []
  | fuel+1, .node v cs =>
    match cs.dropWhile (fun c => depthF fuel c != maxDepthF fuel cs) with
    | [] => [v]
    | m :: rest =>
      upPathF fuel m ++ [v] ++
        ((cs.takeWhile (fun c => depthF fuel c != maxDepthF fuel cs) ++ rest).map
          (downPathF fuel)).flatten

/-- `EnoughFuel fuel t` holds when `fuel` covers the height of `t`, so every
fuelled traversal of `t` has fully unfolded. -/
inductive EnoughFuel : ℕ → RoseTree → Prop where
  | mk : ∀ (fuel : ℕ) (v : String) (cs : List RoseTree),
      (∀ c ∈ cs, EnoughFuel fuel c) → EnoughFuel (fuel+1) (.node v cs)

def parentPairsF : ℕ → RoseTree → List (String × String)
  | 0, _ => []
  | fuel+1, .node v cs =>
    (cs.map (fun c => (v, nodeId c))) ++ (cs.map (parentPairsF fuel)).flatten

def lookupParent (ps : List (String × String)) (x : String) : Option String :=
  (ps.find? (fun p => p.2 == x)).map (fun p => p.1)

def ancestorsF : ℕ → List (String × String) → String → List String
  | 0, _, _ => []
  | fuel+1, ps, x =>
    match lookupParent ps x with
    | none => []
    | some p => p :: ancestorsF fuel ps p

def pathToRoot (fuel : ℕ) (t : RoseTree) (x : String) : List String :=
  x :: ancestorsF fuel (parentPairsF fuel t) x

/-- The unique tree path from `a` to `b`: climb from `a` to the lowest common
ancestor, then descend to `b`. Includes both endpoints. -/
def pathBetween (fuel : ℕ) (t : RoseTree) (a b : String) : List String :=
  let A := pathToRoot fuel t a
  let B := pathToRoot fuel t b
  match A.find? (fun x => B.contains x) with
  | none => []
  | some l => (A.takeWhile (fun x => x != l)) ++ [l] ++ (B.takeWhile (fun x => x != l)).reverse

def consecPairs : List String → List (String × String)
  | a :: b :: rest => (a, b) :: consecPairs (b :: rest)
  | _ => []

/-- Modelled from the spec: `orthogonalization_path` of the planner. For each
consecutive pair of the update path, the chain of nodes the orthogonality
center transits, excluding the source and including the destination. -/
def orthogonalizationPath (fuel : ℕ) (t : RoseTree) : List (List String) :=
  (consecPairs (updatePathF fuel t)).map (fun ab => (pathBetween fuel t ab.1 ab.2).drop 1)

def findSubF : ℕ → String → RoseTree → Option RoseTree
  | 0, _, _ => none
  | fuel+1, x, .node v cs =>
    if v = x then some (.node v cs)
    else (cs.map (findSubF fuel x)).foldr (fun o acc => if o.isSome then o else acc) none

/-- Post-order visit of one branch hanging off the initial caching path: the
cache entries of a node's children are computed before the node's own entry,
and every entry is contracted towards the node's parent. Returns the visited
pairs `(node, next-node)` in order. -/
def cacheSubF : ℕ → RoseTree → String → List (String × String)
  | 0, _, _ => []
  | fuel+1, .node v cs, pid =>
    (cs.map (fun c => cacheSubF fuel c v)).flatten ++ [(v, pid)]

/-- Modelled from the spec: `_find_caching_path`. The chain from the root down
to the first update node is processed in order; before each chain node is
emitted, the branches hanging off it (children not on the chain) are emitted
post-order with next-node pointing towards their parent, and the chain node's
next-node is its successor on the chain. The final node (the first update
node) is emitted without a next-node entry. -/
def cachingFor (fuel : ℕ) (t : RoseTree) : List String → List String × List (String × String)
  | [] => ([], [])
  | [v] => ([v], [])
  | v :: w :: rest =>
    let side : List RoseTree :=
      match findSubF fuel v t with
      | none => []
      | some sub => (childrenOf sub).filter (fun c => nodeId c != w)
    let sideVisits := (side.map (fun c => cacheSubF fuel c v)).flatten
    let pd := cachingFor fuel t (w :: rest)
    (sideVisits.map Prod.fst ++ [v] ++ pd.1, sideVisits ++ [(v, w)] ++ pd.2)

/-- Modelled from the spec: the caching path and the next-node dictionary
(as an insertion-ordered association list) computed once at initialization. -/
def cachingPath (fuel : ℕ) (t : RoseTree) : List String × List (String × String) :=
  match updatePathF fuel t with
  | [] => ([], [])
  | first :: _ => cachingFor fuel t (pathToRoot fuel t first).reverse

/-- Decides whether a path visits each non-leaf node only after all of its
children: every (parent, child) edge must place the child strictly earlier. -/
def childrenFirstOK (fuel : ℕ) (t : RoseTree) (path : List String) : Bool :=
  (parentPairsF fuel t).all (fun pc => path.indexOf pc.2 < path.indexOf pc.1)

/-- The three-node chain tree of the tests: root with children c1 and c2. -/
def chain3 : RoseTree := .node "root" [.node "c1" [], .node "c2" []]

/-! ## Local time evolution (claim C3) -/

/-- Modelled from the spec: `fast_exp_action(exponent, vector)` returns
`exp(exponent) @ vector`; its defining module is absent from the sources. -/
noncomputable def fast_exp_action {N : ℕ} (exponent : Matrix (Fin N) (Fin N) ℂ)
    (vector : Fin N → ℂ) : Fin N → ℂ :=
  (NormedSpace.exp ℂ exponent).mulVec vector

/-- Row-major flattening of a two-leg tensor, as `numpy.ndarray.flatten`. -/
def flattenT {m k : ℕ} (psi : Fin m → Fin k → ℂ) : Fin (m * k) → ℂ :=
  fun x => by
    have hmk : 0 < m * k := lt_of_le_of_lt (Nat.zero_le _) x.isLt
    have hk : 0 < k := by
      rcases Nat.eq_zero_or_pos k with h | h
      · subst h; simp at hmk
      · exact h
    exact psi ⟨x.val / k, (Nat.div_lt_iff_lt_mul hk).2 x.isLt⟩ ⟨x.val % k, Nat.mod_lt _ hk⟩

/-- Row-major reshape of a vector back to the original two-leg shape. -/
def unflattenT {m k : ℕ} (v : Fin (m * k) → ℂ) : Fin m → Fin k → ℂ :=
  fun i j => v ⟨i.val * k + j.val, by
    have h1 : i.val * k + j.val < (i.val + 1) * k := by
      have h2 := j.isLt
      calc i.val * k + j.val < i.val * k + k := by omega
      _ = (i.val + 1) * k := by rw [Nat.succ_mul]
    exact lt_of_lt_of_le h1 (Nat.mul_le_mul_right _ i.isLt)⟩

/-- `time_evolve` from `time_evolution.py`: `sign = -2*forward + 1`, the
exponent is `sign * 1j * hamiltonian * time_difference`, and the result is
`fast_exp_action(exponent, psi.flatten())` reshaped back to the shape of
`psi`. -/
noncomputable def time_evolve {m k : ℕ} (psi : Fin m → Fin k → ℂ)
    (hamiltonian : Matrix (Fin (m * k)) (Fin (m * k)) ℂ) (time_difference : ℝ)
    (forward : Bool) : Fin m → Fin k → ℂ :=
  let sign : ℤ := -2 * (if forward then 1 else 0) + 1
  let exponent : Matrix (Fin (m * k)) (Fin (m * k)) ℂ :=
    ((sign : ℂ) * Complex.I * (time_difference : ℂ)) • hamiltonian
  unflattenT (fast_exp_action exponent (flattenT psi))

/-- Modelled from the spec: `_update_site` evolves the local tensor with the
forward sign of `time_evolve`. -/
noncomputable def update_site_tensor {m k : ℕ} (psi : Fin m → Fin k → ℂ)
    (eff_ham : Matrix (Fin (m * k)) (Fin (m * k)) ℂ) (dt : ℝ) : Fin m → Fin k → ℂ :=
  time_evolve psi eff_ham dt true

/-- Modelled from the spec: `_time_evolve_link_tensor` evolves the transient
link tensor backward in time, calling `time_evolve` with `forward=False`. -/
noncomputable def time_evolve_link_tensor {m k : ℕ} (link : Fin m → Fin k → ℂ)
    (eff_link_ham : Matrix (Fin (m * k)) (Fin (m * k)) ℂ) (dt : ℝ) : Fin m → Fin k → ℂ :=
  time_evolve link eff_link_ham dt false

/-! ## The tree structure and its mutators (claims C5, C7)

`tree_structure.py` keeps a dict from identifiers to `Node` objects plus a
root identifier. The dict is embedded as an insertion-ordered list of node
records with unique identifiers; `dictSet` mirrors Python dict assignment
(update in place, else append) and `dictPop` removal. A raised Python
exception aborts the call; it is modelled as an `.error` result carrying no
state, matching the spec's rule that a failing call does not commit partial
writes. -/

inductive PyErr : Type where
  | valueError
  | keyError
  | assertionError
  | typeError
  | noConnectionException
deriving DecidableEq

structure PyNode where
  identifier : String
  parent : Option String
  children : List String
deriving DecidableEq

structure PyTree where
  nodes : List PyNode
  root_id : Option String
deriving DecidableEq

def dictGet (nodes : List PyNode) (key : String) : Option PyNode :=
  nodes.find? (fun n => n.identifier == key)

def dictSet (nodes : List PyNode) (node : PyNode) : List PyNode :=
  if nodes.any (fun n => n.identifier == node.identifier) then
    nodes.map (fun n => if n.identifier == node.identifier then node else n)
  else
    nodes ++ [node]

def dictPop (nodes : List PyNode) (key : String) : List PyNode :=
  nodes.filter (fun n => n.identifier != key)

/-- Replace the first occurrence of `old` in a list by `new`, as Python's
`list[index(old)] = new` inside `Node.replace_child`. -/
def replaceFirst : List String → String → String → List String
  | [], _, _ => []
  | x :: xs, old, new => if x = old then new :: xs else x :: replaceFirst xs old new

/-- `TreeStructure.add_root`: asserts that no root exists yet, then records
the node and makes it the root. -/
def add_root (t : PyTree) (node : PyNode) : Except PyErr PyTree :=
  if t.root_id ≠ none then .error .assertionError
  else .ok { nodes := dictSet t.nodes node, root_id := some node.identifier }

/-- The child node inserted by `add_child_to_parent`, with its parent link
set. -/
def child_with_parent (child : PyNode) (parent_id : String) : PyNode :=
  { child with parent := some parent_id }

/-- `TreeStructure.add_child_to_parent`: the parent must exist, the child's
identifier must be fresh, the child must not yet have a parent; the child is
recorded with its parent link and appended to the parent's child list. -/
def add_child_to_parent (t : PyTree) (child : PyNode) (parent_id : String) :
    Except PyErr PyTree :=
  if (dictGet t.nodes parent_id).isNone then .error .valueError
  else if (dictGet t.nodes child.identifier).isSome then .error .valueError
  else if child.parent ≠ none then .error .valueError
  else
    match dictGet (dictSet t.nodes (child_with_parent child parent_id)) parent_id with
    | none => .error .keyError
    | some parent =>
      .ok { t with nodes := dictSet (dictSet t.nodes (child_with_parent child parent_id)) { parent with children := parent.children ++ [child.identifier] } }

/-- `TreeStructure.add_parent_to_root`: the new node is recorded, the current
root becomes its child, and the root identifier moves to the new node. On an
empty tree the lookup of the nonexistent root raises. -/
def add_parent_to_root (t : PyTree) (new_root : PyNode) : Except PyErr PyTree :=
  if (dictGet t.nodes new_root.identifier).isSome then .error .valueError
  else
    match t.root_id with
    | none => .error .keyError
    | some r =>
      match dictGet t.nodes r with
      | none => .error .keyError
      | some current_root =>
        if current_root.parent ≠ none then .error .valueError
        else
          .ok { nodes := dictSet (dictSet t.nodes ({ new_root with children := new_root.children ++ [r] })) { current_root with parent := some new_root.identifier }, root_id := some new_root.identifier }

/-- `TreeStructure.determine_parentage`: orders two identifiers as
(parent, child); raises a ValueError when neither node is a child of the
other, i.e. the nodes are not neighbours. -/
def determine_parentage (t : PyTree) (node_id1 node_id2 : String) :
    Except PyErr (String × String) :=
  match dictGet t.nodes node_id1, dictGet t.nodes node_id2 with
  | some node1, some node2 =>
    if node2.parent = some node_id1 then .ok (node_id1, node_id2)
    else if node1.parent = some node_id2 then .ok (node_id2, node_id1)
    else .error .valueError
  | _, _ => .error .keyError

/-- Helper of `TreeStructure._replace_node`: re-point the parent link of each
listed child to `pid`. -/
def set_parents : PyTree → List String → String → Except PyErr PyTree
  | t, [], _ => .ok t
  | t, nid :: rest, pid =>
    match dictGet t.nodes nid with
    | none => .error .keyError
    | some node =>
      set_parents { t with nodes := dictSet t.nodes { node with parent := some pid } } rest pid

/-- `TreeStructure._replace_node(new_node_id, old_node_id)`: each child of the
new node gets the new node as parent; if the new node is not a root, its
parent's child entry `old_node_id` is replaced by the new identifier. -/
def replace_node_aux (t : PyTree) (new_node_id old_node_id : String) : Except PyErr PyTree :=
  match dictGet t.nodes new_node_id with
  | none => .error .keyError
  | some new_node =>
    match set_parents t new_node.children new_node_id with
    | .error e => .error e
    | .ok t2 =>
      match dictGet t2.nodes new_node_id with
      | none => .error .keyError
      | some nn2 =>
        match nn2.parent with
        | none => .ok t2
        | some pid =>
          match dictGet t2.nodes pid with
          | none => .error .keyError
          | some pnode =>
            if old_node_id = new_node_id then .ok t2
            else if old_node_id ∈ pnode.children then
              let pnode2 : PyNode :=
                { pnode with children := replaceFirst pnode.children old_node_id new_node_id }
              .ok { t2 with nodes := dictSet t2.nodes pnode2 }
            else .error .valueError

/-- `TreeStructure.combine_nodes`: merges a neighbouring parent/child pair
into one fresh node carrying both child lists, the parent's parent link and,
when the parent was the root, the root identifier. -/
def combine_nodes (t : PyTree) (node_id1 node_id2 : String) (new_identifier : String) :
    Except PyErr PyTree :=
  match determine_parentage t node_id1 node_id2 with
  | .error e => .error e
  | .ok (parent_id, child_id) =>
    let new_id := if new_identifier = "" then node_id1 ++ "contr" ++ node_id2 else new_identifier
    match dictGet t.nodes parent_id, dictGet t.nodes child_id with
    | some parent_node, some child_node =>
      let parent_parent_id := parent_node.parent
      let parent_children := parent_node.children.erase child_id
      let total_children :=
        if parent_id = node_id1 then parent_children ++ child_node.children
        else child_node.children ++ parent_children
      let root1 : Option String := if parent_node.parent = none then some new_id else t.root_id
      let nodes1 := dictPop (dictPop t.nodes parent_id) child_id
      let new_node : PyNode :=
        { identifier := new_id, parent := parent_parent_id, children := total_children }
      replace_node_aux { nodes := dictSet nodes1 new_node, root_id := root1 } new_id parent_id
    | _, _ => .error .keyError

/-- `TreeStructure.split_node`: replaces one node by a parent/child pair of
fresh nodes, distributing the old neighbours as requested; asserts that the
old node's parent occurs among the new neighbours unless the old node was the
root, in which case the first node becomes the new root. -/
def split_node (t : PyTree) (old_node_id : String) (node1_id : String)
    (neighbours1 : List String) (node2_id : String) (neighbours2 : List String) :
    Except PyErr PyTree :=
  match dictGet t.nodes old_node_id with
  | none => .error .keyError
  | some node =>
    let build := fun (parent_id child_id : String) (parent_neighbours child_neighbours : List String)
        (parent_link : Option String) (root1 : Option String) =>
      let parent_node : PyNode :=
        { identifier := parent_id, parent := parent_link,
          children := parent_neighbours ++ [child_id] }
      let child_node : PyNode :=
        { identifier := child_id, parent := some parent_id, children := child_neighbours }
      let nodes1 := dictSet (dictSet (dictPop t.nodes old_node_id) parent_node) child_node
      match replace_node_aux { nodes := nodes1, root_id := root1 } child_id child_id with
      | .error e => .error e
      | .ok t2 => replace_node_aux t2 parent_id old_node_id
    match node.parent with
    | none => build node1_id node2_id neighbours1 neighbours2 none (some node1_id)
    | some p =>
      if p ∈ neighbours1 then
        build node1_id node2_id (neighbours1.erase p) neighbours2 (some p) t.root_id
      else if p ∈ neighbours2 then
        build node2_id node1_id (neighbours2.erase p) neighbours1 (some p) t.root_id
      else .error .assertionError

/-- The states reachable from an empty `TreeStructure` by successful calls of
the public mutators; node arguments are freshly constructed `Node` objects
(no parent, no children), as in the sources' construction code. -/
inductive Reach : PyTree → Prop where
  | empty : Reach { nodes := [], root_id := none }
  | root {t t2 : PyTree} {nid : String} : Reach t →
      add_root t { identifier := nid, parent := none, children := [] } = .ok t2 → Reach t2
  | child {t t2 : PyTree} {nid pid : String} : Reach t →
      add_child_to_parent t { identifier := nid, parent := none, children := [] } pid = .ok t2 →
      Reach t2
  | parentRoot {t t2 : PyTree} {nid : String} : Reach t →
      add_parent_to_root t { identifier := nid, parent := none, children := [] } = .ok t2 →
      Reach t2
  | combine {t t2 : PyTree} {id1 id2 newid : String} : Reach t →
      combine_nodes t id1 id2 newid = .ok t2 → Reach t2
  | split {t t2 : PyTree} {oldid id1 id2 : String} {ns1 ns2 : List String} : Reach t →
      split_node t oldid id1 ns1 id2 ns2 = .ok t2 → Reach t2

/-- The root invariant: identifiers are unique and either the tree is empty
with no root identifier, or the root identifier names a present node and a
node is parentless exactly when it is that root node. -/
def RootInv (t : PyTree) : Prop :=
  (t.nodes.map PyNode.identifier).Nodup ∧
    ((t.root_id = none ∧ t.nodes = []) ∨
      (∃ r, t.root_id = some r ∧ (∃ n ∈ t.nodes, n.identifier = r) ∧
        (∀ n ∈ t.nodes, n.parent = none ↔ n.identifier = r)))

/-- The states reachable through the three extending mutators only
(`add_root`, `add_child_to_parent`, `add_parent_to_root`), again with fresh
node arguments. -/
inductive ReachAdd : PyTree → Prop where
  | empty : ReachAdd { nodes := [], root_id := none }
  | root {t t2 : PyTree} {nid : String} : ReachAdd t →
      add_root t { identifier := nid, parent := none, children := [] } = .ok t2 → ReachAdd t2
  | child {t t2 : PyTree} {nid pid : String} : ReachAdd t →
      add_child_to_parent t { identifier := nid, parent := none, children := [] } pid = .ok t2 →
      ReachAdd t2
  | parentRoot {t t2 : PyTree} {nid : String} : ReachAdd t →
      add_parent_to_root t { identifier := nid, parent := none, children := [] } = .ok t2 →
      ReachAdd t2

/-- The tree holding only a root R. -/
def treeCex1 : PyTree :=
  { nodes := [{ identifier := "R", parent := none, children := [] }], root_id := some "R" }

/-- The tree R with child A. -/
def treeCex2 : PyTree :=
  { nodes := [{ identifier := "R", parent := none, children := ["A"] },
              { identifier := "A", parent := some "R", children := [] }],
    root_id := some "R" }

/-- The state produced by `split_node treeCex2 "A" "A1" ["R"] "A2" ["R"]`: the
bogus neighbour list `["R"]` for the child half makes `_replace_node`
re-parent the root R, leaving a parent cycle and no parentless node at all
while `root_id` still names R. -/
def treeCex3 : PyTree :=
  { nodes := [{ identifier := "R", parent := some "A2", children := ["A1"] },
              { identifier := "A1", parent := some "R", children := ["A2"] },
              { identifier := "A2", parent := some "A1", children := ["R"] }],
    root_id := some "R" }

/-! ## Tensor-node contraction (claims C5, C9)

`node_contraction.py` works on `TensorNode` objects: an identifier, a tag, a
dense tensor, the parent leg (parent identifier and leg index, absent for a
root) and the ordered child-legs dictionary. The tensor itself is embedded as
an index function; `contract_nodes` is embedded up to the data that the
claims concern (identifier/tag construction and the connecting-leg dispatch,
whose failure is the claimed error). -/

structure TensorNode where
  identifier : String
  tag : String
  tensor : ℕ → ℂ
  parent_leg : Option (String × ℕ)
  children_legs : List (String × ℕ)

def TensorNode.is_parent_of (node : TensorNode) (other_node_id : String) : Bool :=
  node.children_legs.any (fun cl => cl.1 == other_node_id)

def construct_contracted_identifier (node1_id node2_id : String)
    (new_identifier : Option String) : String :=
  match new_identifier with
  | none => node1_id ++ "_contr_" ++ node2_id
  | some s => s

def construct_contracted_tag (node1_tag node2_tag : String) (new_tag : Option String) : String :=
  match new_tag with
  | none => node1_tag ++ "_contr_" ++ node2_tag
  | some s => s

/-- `find_connecting_legs(parent, child)`: asserts the parent's identifier is
recorded in the child's parent leg and returns the pair of connecting leg
indices. -/
def find_connecting_legs (parent child : TensorNode) : Except PyErr (ℕ × ℕ) :=
  match child.parent_leg with
  | none => .error .assertionError
  | some (pid, leg_child_to_parent) =>
    if pid ≠ parent.identifier then .error .assertionError
    else
      match (child.identifier, ·) <$> (parent.children_legs.find? (fun cl => cl.1 == child.identifier)) with
      | none => .error .keyError
      | some (_, cl) => .ok (cl.2, leg_child_to_parent)

structure ContractedNodeInfo where
  identifier : String
  tag : String
  leg_node1_to_node2 : ℕ
  leg_node2_to_node1 : ℕ
  node1_is_parent : Bool
deriving DecidableEq

/-- `contract_nodes(node1, node2)` up to the data the claims concern: the new
identifier and tag are always constructed; then one of the nodes must be the
parent of the other, fixing the connecting legs, and otherwise a
`NoConnectionException` is raised. -/
def contract_nodes (node1 node2 : TensorNode) (new_tag new_identifier : Option String) :
    Except PyErr ContractedNodeInfo :=
  let new_id := construct_contracted_identifier node1.identifier node2.identifier new_identifier
  let new_tag2 := construct_contracted_tag node1.tag node2.tag new_tag
  if node1.is_parent_of node2.identifier then
    match find_connecting_legs node1 node2 with
    | .error e => .error e
    | .ok (leg12, leg21) =>
      .ok { identifier := new_id, tag := new_tag2, leg_node1_to_node2 := leg12,
            leg_node2_to_node1 := leg21, node1_is_parent := true }
  else if node2.is_parent_of node1.identifier then
    match find_connecting_legs node2 node1 with
    | .error e => .error e
    | .ok (leg21, leg12) =>
      .ok { identifier := new_id, tag := new_tag2, leg_node1_to_node2 := leg12,
            leg_node2_to_node1 := leg21, node1_is_parent := false }
  else .error .noConnectionException

/-- `conjugate_node` from `node.py`: a copy with conjugated tensor entries and
`conj_`-prefixed identifier and tag; with `conj_neighbours` also the
identifiers inside the legs are prefixed. -/
def conjugate_node (node : TensorNode) (conj_neighbours : Bool) : TensorNode :=
  let base : TensorNode :=
    { node with
      identifier := "conj_" ++ node.identifier,
      tag := "conj_" ++ node.tag,
      tensor := fun i => (starRingEnd ℂ) (node.tensor i) }
  if conj_neighbours then
    { base with
      parent_leg := base.parent_leg.map (fun pl => ("conj_" ++ pl.1, pl.2)),
      children_legs := base.children_legs.map (fun cl => ("conj_" ++ cl.1, cl.2)) }
  else base

/-- `transfer_tensor` from `node_contraction.py`: conjugates the node and
constructs the contracted identifier and tag, then ends without a return
statement (its trailing comment leaves the parent-leg handling unresolved),
so Python returns `None` for every input. -/
def transfer_tensor (node : TensorNode) (new_tag new_identifier : Option String) :
    Option TensorNode :=
  let conj_node := conjugate_node node true
  let _new_identifier :=
    construct_contracted_identifier node.identifier conj_node.identifier new_identifier
  let _new_tag := construct_contracted_tag node.tag conj_node.tag new_tag
  none

/-! ## The TDVP sweep state machine (claims C4, C6)

The engine state holds the orthogonality-center identifier, the node tensors
and the partial-tree cache. The per-edge operations (one orthogonality-center
move with its QR splitting, one cache-entry recomputation, and the
split/evolve/merge body of a link update) involve the missing tensor modules,
so the state machine is stated for arbitrary such operations; the claims
concern only the precondition checks and the iteration structure, which are
modelled from the spec. -/

structure TDVPState where
  orthogonality_center_id : String
  tensors : String → ℕ → ℂ
  cache : String × String → Option (ℕ → ℂ)

/-- The loop body of `_move_orth_and_update_cache_for_path`: for each
consecutive pair of the path, move the center one edge and recompute the
cache entry of the traversed edge. -/
def walkPath (moveStep : TDVPState → String → TDVPState)
    (cacheStep : TDVPState → String → String → TDVPState) :
    TDVPState → String → List String → TDVPState
  | st, _, [] => st
  | st, prev, v :: vs => walkPath moveStep cacheStep (cacheStep (moveStep st v) prev v) v vs

/-- Modelled from the spec: `_move_orth_and_update_cache_for_path`. An empty
path returns immediately; otherwise the first path node is asserted to be the
current orthogonality center before any move happens, and the remaining path
is walked edge by edge. -/
def move_orth_and_update_cache_for_path (moveStep : TDVPState → String → TDVPState)
    (cacheStep : TDVPState → String → String → TDVPState)
    (st : TDVPState) (path : List String) : Except PyErr TDVPState :=
  match path with
  | [] => .ok st
  | first :: rest =>
    if st.orthogonality_center_id ≠ first then .error .assertionError
    else .ok (walkPath moveStep cacheStep st first rest)

/-- Modelled from the spec: `_update_link(node_id, next_node_id)` asserts the
orthogonality center is at `node_id` before splitting the site, evolving the
link tensor backward and merging it into the next site (the `body`). -/
def update_link (body : TDVPState → String → String → TDVPState)
    (st : TDVPState) (node_id next_node_id : String) : Except PyErr TDVPState :=
  if st.orthogonality_center_id ≠ node_id then .error .assertionError
  else .ok (body st node_id next_node_id)

/-! ## Time-evolution configuration and Trotter classes (claims C8, C10) -/

structure TimeEvolutionConfig where
  time_step_size : ℚ
  final_time : ℚ
  num_time_steps : ℕ
deriving DecidableEq

/-- `TimeEvolution._compute_num_time_steps`: the integer part of
`final_time / time_step_size`, rounded up unless the fractional part is below
one tenth. -/
def compute_num_time_steps (dt T : ℚ) : ℕ :=
  let q := T / dt
  let decimal := q - (q.floor : ℚ)
  if decimal < 1 / 10 then q.floor.toNat else (q.floor + 1).toNat

/-- `TimeEvolution.__init__` reduced to its configuration arguments: a
nonpositive time-step size or final time raises a ValueError before any time
step runs. -/
def time_evolution_init (time_step_size final_time : ℚ) : Except PyErr TimeEvolutionConfig :=
  if time_step_size ≤ 0 then .error .valueError
  else if final_time ≤ 0 then .error .valueError
  else .ok { time_step_size := time_step_size, final_time := final_time,
             num_time_steps := compute_num_time_steps time_step_size final_time }

/-- An element of the Python `splitting` list: an int, a tuple, or a value of
any other type. -/
inductive SplittingItem : Type where
  | int (i : ℤ)
  | tuple (pair : ℤ × ℚ)
  | other
deriving DecidableEq

/-- The `splitting` normalisation loop of `TrotterSplitting.__init__`: ints
get factor 1, tuples pass through, anything else raises a TypeError. -/
def build_splitting : List SplittingItem → Except PyErr (List (ℤ × ℚ))
  | [] => .ok []
  | .int i :: rest =>
    match build_splitting rest with
    | .error e => .error e
    | .ok l => .ok ((i, 1) :: l)
  | .tuple p :: rest =>
    match build_splitting rest with
    | .error e => .error e
    | .ok l => .ok (p :: l)
  | .other :: _ => .error .typeError

/-- `TrotterSplitting.__init__` reduced to the splitting argument: a missing
splitting defaults to the operator order with factors 1, and a given one is
normalised by `build_splitting`. -/
def trotter_splitting_init (num_products : ℕ) (splitting : Option (List SplittingItem)) :
    Except PyErr (List (ℤ × ℚ)) :=
  match splitting with
  | none => .ok ((List.range num_products).map (fun i => ((i : ℤ), 1)))
  | some items => build_splitting items

/-- `SWAPlist.__init__`: the constructor iterates `swap_list` (checking that
each pair has exactly two entries) before the `swap_list is None` test that
would replace a missing argument by `[]`, so passing `None` (the default)
makes the `for` statement raise a TypeError. -/
def swaplist_init (swap_list : Option (List (List String))) :
    Except PyErr (List (List String)) :=
  match swap_list with
  | none => .error .typeError
  | some pairs =>
    if pairs.all (fun p => p.length = 2) then .ok pairs
    else .error .valueError

/-- `TrotterStep.__init__` reduced to its SWAP-list arguments: a `None`
default is replaced by `SWAPlist()`, which itself constructs with
`swap_list=None` and therefore raises. -/
def trotter_step_init (swaps_before swaps_after : Option (List (List String))) :
    Except PyErr ((List (List String)) × (List (List String))) :=
  match (match swaps_before with
         | none => swaplist_init none
         | some sb => .ok sb) with
  | .error e => .error e
  | .ok sb2 =>
    match (match swaps_after with
           | none => swaplist_init none
           | some sa => .ok sa) with
    | .error e => .error e
    | .ok sa2 => .ok (sb2, sa2)

/-! ## Theorems -/

theorem sum_piFinset_prod {n : ℕ} {α β : Fin n → Type} (A : ∀ i, Finset (α i))
    (B : ∀ i, Finset (β i)) (f : (∀ i, α i × β i) → ℂ) :
    ∑ F ∈ Fintype.piFinset (fun i => A i ×ˢ B i), f F
      = ∑ T ∈ Fintype.piFinset A, ∑ G ∈ Fintype.piFinset B, f (fun i => (T i, G i)) := by
  have key : ∑ F ∈ Fintype.piFinset (fun i => A i ×ˢ B i), f F
      = ∑ p ∈ (Fintype.piFinset A) ×ˢ (Fintype.piFinset B), f (fun i => (p.1 i, p.2 i)) := by
    apply Finset.sum_nbij' (fun F => (fun i => (F i).1, fun i => (F i).2))
      (fun p => fun i => (p.1 i, p.2 i))
    · intro F hF
      simp only [Fintype.mem_piFinset, Finset.mem_product] at hF ⊢
      exact ⟨fun i => (hF i).1, fun i => (hF i).2⟩
    · intro p hp
      simp only [Fintype.mem_piFinset, Finset.mem_product] at hp ⊢
      exact fun i => ⟨hp.1 i, hp.2 i⟩
    · intro F _
      funext i
      rfl
    · intro p _
      rfl
    · intro F _
      rfl
  rw [key, Finset.sum_product]

/-- The nested per-subtree contraction of the cache equals the single global
sum of tensor-entry products: the central factorisation behind claim C1. -/
theorem env_eq_sum_weight : (t : TTree) → ∀ a b a1,
    env t a b a1 = ∑ g ∈ asgs t, weight t a b a1 g
  | .node od n bd hd psi ham ts => by
    intro a b a1
    have IH : ∀ (i : Fin n) (x y z : ℕ),
        env (ts i) x y z = ∑ g ∈ asgs (ts i), weight (ts i) x y z g :=
      fun i => env_eq_sum_weight (ts i)
    rw [env, asgs]
    simp only [IH, Finset.prod_univ_sum, Finset.mul_sum]
    rw [Finset.sum_product]
    simp only [Finset.sum_product, sum_piFinset_prod]
    rfl

/-- C1: for every site `A` of a tree of depth at least 2 (the statement holds
for every site of every tree, the tree being presented as `A`'s list of
neighbour subtrees), the effective site Hamiltonian assembled from the cached
environment tensors — one cache entry per neighbour pointing into `A`,
contracted with `A`'s Hamiltonian tensor, the square-matrix reshape being the
currying over (bond indices, open index) pairs — equals the explicit full
re-contraction of the Hamiltonian and state tensors over the whole tree
excluding `A`'s own open legs. -/
theorem effective_site_hamiltonian_eq_full_contraction (n : ℕ) (hd : Fin n → ℕ)
    (hamA : (Fin n → ℕ) → ℕ → ℕ → ℂ) (ts : Fin n → TTree)
    (c : Fin n → ℕ) (s : ℕ) (c1 : Fin n → ℕ) (t : ℕ) :
    effective_site_hamiltonian n hd hamA ts c s c1 t
      = full_contraction_except_site n hd hamA ts c s c1 t := by
  unfold effective_site_hamiltonian full_contraction_except_site
  refine Finset.sum_congr rfl (fun d _ => ?_)
  simp only [env_eq_sum_weight, Finset.prod_univ_sum, Finset.mul_sum]

theorem foldr_max_mem (l : List ℕ) (h : l ≠ []) : l.foldr Nat.max 0 ∈ l := by
  induction l with
  | nil => exact absurd rfl h
  | cons a xs ih =>
    cases xs with
    | nil => simp
    | cons b ys =>
      rcases Nat.le_total ((b :: ys).foldr Nat.max 0) a with h1 | h1
      · simp only [List.foldr_cons] at h1 ⊢
        rw [show a.max (b.max (List.foldr Nat.max 0 ys)) = a from Nat.max_eq_left h1]
        exact List.mem_cons_self _ _
      · simp only [List.foldr_cons] at h1 ⊢
        rw [show a.max (b.max (List.foldr Nat.max 0 ys)) = b.max (List.foldr Nat.max 0 ys) from
          Nat.max_eq_right h1]
        exact List.mem_cons_of_mem _ (ih (by simp))

theorem maxDepthF_attained (fuel : ℕ) (cs : List RoseTree) (h : cs ≠ []) :
    ∃ c ∈ cs, depthF fuel c = maxDepthF fuel cs := by
  have h2 := foldr_max_mem (cs.map (depthF fuel)) (by simpa using h)
  rw [List.mem_map] at h2
  obtain ⟨c, hc, hd⟩ := h2
  exact ⟨c, hc, hd⟩

theorem list_shuffle {α : Type} (X A B : List α) (v : α) :
    (X ++ (A ++ B) ++ [v]).Perm (v :: (A ++ (X ++ B))) := by
  have hc : (v :: (A ++ (X ++ B))) = [v] ++ (A ++ (X ++ B)) := rfl
  rw [hc, ← Multiset.coe_eq_coe]
  simp only [← Multiset.coe_add]
  abel

theorem list_shuffle2 {α : Type} (X A B : List α) (v : α) :
    (X ++ [v] ++ (A ++ B)).Perm (v :: (A ++ (X ++ B))) := by
  have hc : (v :: (A ++ (X ++ B))) = [v] ++ (A ++ (X ++ B)) := rfl
  rw [hc, ← Multiset.coe_eq_coe]
  simp only [← Multiset.coe_add]
  abel

theorem flatten_map_perm (l : List RoseTree) (f g : RoseTree → List String)
    (h : ∀ c ∈ l, (f c).Perm (g c)) :
    ((l.map f).flatten).Perm ((l.map g).flatten) := by
  induction l with
  | nil => rfl
  | cons x xs ih =>
    simp only [List.map_cons, List.flatten_cons]
    exact (h x (by simp)).append (ih (fun a ha => h a (by simp [ha])))

theorem downPathF_perm {fuel : ℕ} {t : RoseTree} (h : EnoughFuel fuel t) :
    (downPathF fuel t).Perm (nodesListF fuel t) := by
  induction h with
  | mk fuel v cs hcs ih =>
    simp only [downPathF, nodesListF]
    exact List.Perm.cons _ (flatten_map_perm _ _ _ ih)

theorem upPathF_perm {fuel : ℕ} {t : RoseTree} (h : EnoughFuel fuel t) :
    (upPathF fuel t).Perm (nodesListF fuel t) := by
  induction h with
  | mk fuel v cs hcs ih =>
    simp only [upPathF, nodesListF]
    cases hdw : cs.dropWhile (fun c => depthF fuel c != maxDepthF fuel cs) with
    | nil =>
      cases hcs0 : cs with
      | nil => simp [hcs0]
      | cons x xs =>
        exfalso
        obtain ⟨c, hc, hd⟩ := maxDepthF_attained fuel cs (by simp [hcs0])
        have hall : ∀ x ∈ cs, (depthF fuel x != maxDepthF fuel cs) = true := by
          rw [← List.dropWhile_eq_nil_iff]
          exact hdw
        have := hall c hc
        simp [hd] at this
    | cons m rest =>
      have hsplit : cs.takeWhile (fun c => depthF fuel c != maxDepthF fuel cs) ++ (m :: rest)
          = cs := by
        rw [← hdw]
        exact List.takeWhile_append_dropWhile _ _
      set T := cs.takeWhile (fun c => depthF fuel c != maxDepthF fuel cs) with hT
      have hmemm : m ∈ cs := by rw [← hsplit]; simp
      have hmemT : ∀ c ∈ T, c ∈ cs := fun c hc => by rw [← hsplit]; simp [hc]
      have hmemR : ∀ c ∈ rest, c ∈ cs := fun c hc => by rw [← hsplit]; simp [hc]
      have h1 : (upPathF fuel m).Perm (nodesListF fuel m) := ih m hmemm
      have h2 : (((T ++ rest).map (downPathF fuel)).flatten).Perm
          (((T ++ rest).map (nodesListF fuel)).flatten) := by
        refine flatten_map_perm _ _ _ (fun c hc => ?_)
        rw [List.mem_append] at hc
        rcases hc with hc | hc
        · exact downPathF_perm (hcs c (hmemT c hc))
        · exact downPathF_perm (hcs c (hmemR c hc))
      refine ((h1.append h2).append (List.Perm.refl [v])).trans ?_
      rw [List.map_append, List.flatten_append]
      refine (list_shuffle (nodesListF fuel m) ((T.map (nodesListF fuel)).flatten)
        ((rest.map (nodesListF fuel)).flatten) v).trans ?_
      rw [← hsplit]
      simp [List.map_append]

theorem updatePathF_perm {fuel : ℕ} {t : RoseTree} (h : EnoughFuel fuel t) :
    (updatePathF fuel t).Perm (nodesListF fuel t) := by
  cases h with
  | mk fuel v cs hcs =>
    simp only [updatePathF, nodesListF]
    cases hdw : cs.dropWhile (fun c => depthF fuel c != maxDepthF fuel cs) with
    | nil =>
      cases hcs0 : cs with
      | nil => simp [hcs0]
      | cons x xs =>
        exfalso
        obtain ⟨c, hc, hd⟩ := maxDepthF_attained fuel cs (by simp [hcs0])
        have hall : ∀ x ∈ cs, (depthF fuel x != maxDepthF fuel cs) = true := by
          rw [← List.dropWhile_eq_nil_iff]
          exact hdw
        have := hall c hc
        simp [hd] at this
    | cons m rest =>
      have hsplit : cs.takeWhile (fun c => depthF fuel c != maxDepthF fuel cs) ++ (m :: rest)
          = cs := by
        rw [← hdw]
        exact List.takeWhile_append_dropWhile _ _
      set T := cs.takeWhile (fun c => depthF fuel c != maxDepthF fuel cs) with hT
      have hmemm : m ∈ cs := by rw [← hsplit]; simp
      have hmemT : ∀ c ∈ T, c ∈ cs := fun c hc => by rw [← hsplit]; simp [hc]
      have hmemR : ∀ c ∈ rest, c ∈ cs := fun c hc => by rw [← hsplit]; simp [hc]
      have h1 : (upPathF fuel m).Perm (nodesListF fuel m) := upPathF_perm (hcs m hmemm)
      have h2 : (((T ++ rest).map (downPathF fuel)).flatten).Perm
          (((T ++ rest).map (nodesListF fuel)).flatten) := by
        refine flatten_map_perm _ _ _ (fun c hc => ?_)
        rw [List.mem_append] at hc
        rcases hc with hc | hc
        · exact downPathF_perm (hcs c (hmemT c hc))
        · exact downPathF_perm (hcs c (hmemR c hc))
      refine ((h1.append (List.Perm.refl [v])).append h2).trans ?_
      rw [List.map_append, List.flatten_append]
      refine (list_shuffle2 (nodesListF fuel m) ((T.map (nodesListF fuel)).flatten)
        ((rest.map (nodesListF fuel)).flatten) v).trans ?_
      rw [← hsplit]
      simp [List.map_append]

/-- C2 counterexample: on the three-node chain the planner's recorded update
path is `[c1, root, c2]`, and in that very path the non-leaf root is visited
before its child c2, so the claimed rule that each non-leaf node is visited
only after all its children fails on the claim's own example tree. -/
theorem update_path_children_first_counterexample :
    updatePathF 8 chain3 = ["c1", "root", "c2"]
      ∧ childrenFirstOK 8 chain3 (updatePathF 8 chain3) = false := by
  decide

theorem chain3_enough_fuel : EnoughFuel 2 chain3 := by
  have h0 : ∀ v : String, EnoughFuel 1 (RoseTree.node v []) :=
    fun v => EnoughFuel.mk 0 v [] (fun c hc => absurd hc (List.not_mem_nil c))
  show EnoughFuel 2 (RoseTree.node "root" [RoseTree.node "c1" [], RoseTree.node "c2" []])
  refine EnoughFuel.mk 1 "root" _ (fun c hc => ?_)
  simp only [List.mem_cons, List.not_mem_nil, or_false] at hc
  rcases hc with rfl | rfl
  · exact h0 "c1"
  · exact h0 "c2"

/-- C2 (amended): for the 3-node chain with children c1 and c2 of the root,
the planner yields `update_path = [c1, root, c2]`,
`orthogonalization_path = [[root], [c2]]`, `caching_path = [c2, root, c1]`
and next-node map `{c2: root, root: c1}` (as an insertion-ordered
association list); in general the update path visits every node exactly once
(it is a permutation of the node list). The original claim's additional rule
that each non-leaf node is visited only after all its children is dropped,
as the recorded paths themselves violate it. -/
theorem update_path_planner_amended :
    updatePathF 8 chain3 = ["c1", "root", "c2"]
      ∧ orthogonalizationPath 8 chain3 = [["root"], ["c2"]]
      ∧ cachingPath 8 chain3 = (["c2", "root", "c1"], [("c2", "root"), ("root", "c1")])
      ∧ ∀ (fuel : ℕ) (t : RoseTree), EnoughFuel fuel t →
          (updatePathF fuel t).Perm (nodesListF fuel t) := by
  refine ⟨by decide, by decide, by decide, fun fuel t h => updatePathF_perm h⟩

/-- C2 witness: the general clause of the amended theorem applied to the
three-node chain with fuel 2. -/
theorem update_path_planner_amended_witness :
    EnoughFuel 2 chain3 ∧ (updatePathF 2 chain3).Perm (nodesListF 2 chain3) :=
  ⟨chain3_enough_fuel, update_path_planner_amended.2.2.2 2 chain3 chain3_enough_fuel⟩

/-- C3: `time_evolve` applies `exp(-i H dt)` to the flattened state and
reshapes back when `forward` is true, and `exp(+i H dt)` when `forward` is
false; site updates use the forward sign and link evolutions the backward
sign. -/
theorem time_evolve_exponent_signs {m k : ℕ} (psi : Fin m → Fin k → ℂ)
    (H : Matrix (Fin (m * k)) (Fin (m * k)) ℂ) (dt : ℝ) :
    time_evolve psi H dt true
        = unflattenT ((NormedSpace.exp ℂ ((-(Complex.I * (dt : ℂ))) • H)).mulVec (flattenT psi))
      ∧ time_evolve psi H dt false
        = unflattenT ((NormedSpace.exp ℂ ((Complex.I * (dt : ℂ)) • H)).mulVec (flattenT psi))
      ∧ update_site_tensor psi H dt
        = unflattenT ((NormedSpace.exp ℂ ((-(Complex.I * (dt : ℂ))) • H)).mulVec (flattenT psi))
      ∧ time_evolve_link_tensor psi H dt
        = unflattenT ((NormedSpace.exp ℂ ((Complex.I * (dt : ℂ)) • H)).mulVec (flattenT psi)) := by
  have hfwd : time_evolve psi H dt true
      = unflattenT ((NormedSpace.exp ℂ ((-(Complex.I * (dt : ℂ))) • H)).mulVec (flattenT psi)) := by
    unfold time_evolve fast_exp_action
    norm_num
  have hbwd : time_evolve psi H dt false
      = unflattenT ((NormedSpace.exp ℂ ((Complex.I * (dt : ℂ)) • H)).mulVec (flattenT psi)) := by
    unfold time_evolve fast_exp_action
    norm_num
  exact ⟨hfwd, hbwd, hfwd, hbwd⟩

/-- C4: requesting `_update_link` or a cache-updating orthogonality-center
move along a path while the orthogonality center is not at the expected node
fails with a precondition/state (assertion) error; the error result carries
no state, so the situation is never silently corrected and no implicit move
of the center is performed. -/
theorem update_requires_orthogonality_center
    (body : TDVPState → String → String → TDVPState)
    (moveStep : TDVPState → String → TDVPState)
    (cacheStep : TDVPState → String → String → TDVPState)
    (st : TDVPState) (node_id next_node_id first : String) (rest : List String) :
    (st.orthogonality_center_id ≠ node_id →
      update_link body st node_id next_node_id = .error .assertionError)
    ∧ (st.orthogonality_center_id ≠ first →
      move_orth_and_update_cache_for_path moveStep cacheStep st (first :: rest)
        = .error .assertionError) := by
  constructor
  · intro h
    unfold update_link
    simp [h]
  · intro h
    unfold move_orth_and_update_cache_for_path
    simp [h]

/-- C4 witness: with the center at c1, a link update expecting the center at
root fails with the assertion error. -/
theorem update_requires_orthogonality_center_witness :
    ({ orthogonality_center_id := "c1", tensors := fun _ _ => 0, cache := fun _ => none } :
        TDVPState).orthogonality_center_id ≠ "root"
    ∧ update_link (fun s _ _ => s)
        { orthogonality_center_id := "c1", tensors := fun _ _ => 0, cache := fun _ => none }
        "root" "c2" = .error .assertionError :=
  ⟨by decide,
    (update_requires_orthogonality_center (fun s _ _ => s) (fun s _ => s) (fun s _ _ => s)
      { orthogonality_center_id := "c1", tensors := fun _ _ => 0, cache := fun _ => none }
      "root" "c2" "root" []).1 (by decide)⟩

/-- C5: for identifiers that are not adjacent in the tree (neither node is the
parent of the other), `contract_nodes` fails with `NoConnectionException` and
`TreeStructure.determine_parentage` with a ValueError; both surface the error
as a result rather than ignoring it. -/
theorem non_adjacent_pair_errors :
    (∀ (node1 node2 : TensorNode) (new_tag new_identifier : Option String),
      node1.is_parent_of node2.identifier = false →
      node2.is_parent_of node1.identifier = false →
      contract_nodes node1 node2 new_tag new_identifier = .error .noConnectionException)
    ∧ (∀ (t : PyTree) (id1 id2 : String) (n1 n2 : PyNode),
      dictGet t.nodes id1 = some n1 → dictGet t.nodes id2 = some n2 →
      n2.parent ≠ some id1 → n1.parent ≠ some id2 →
      determine_parentage t id1 id2 = .error .valueError) := by
  constructor
  · intro n1 n2 tg idf h1 h2
    unfold contract_nodes
    simp [h1, h2]
  · intro t id1 id2 n1 n2 h1 h2 h3 h4
    unfold determine_parentage
    rw [h1, h2]
    simp [h3, h4]

/-- C5 witness: two sibling leaves c1 and c2 under a common root are not
adjacent, and both operations fail on them as stated. -/
theorem non_adjacent_pair_errors_witness :
    (TensorNode.is_parent_of
        { identifier := "c1", tag := "c1", tensor := fun _ => 0,
          parent_leg := some ("root", 0), children_legs := [] } "c2" = false)
    ∧ (TensorNode.is_parent_of
        { identifier := "c2", tag := "c2", tensor := fun _ => 0,
          parent_leg := some ("root", 0), children_legs := [] } "c1" = false)
    ∧ contract_nodes
        { identifier := "c1", tag := "c1", tensor := fun _ => 0,
          parent_leg := some ("root", 0), children_legs := [] }
        { identifier := "c2", tag := "c2", tensor := fun _ => 0,
          parent_leg := some ("root", 0), children_legs := [] } none none
        = .error .noConnectionException
    ∧ determine_parentage
        { nodes := [{ identifier := "root", parent := none, children := ["c1", "c2"] },
                    { identifier := "c1", parent := some "root", children := [] },
                    { identifier := "c2", parent := some "root", children := [] }],
          root_id := some "root" } "c1" "c2" = .error .valueError := by
  refine ⟨rfl, rfl, ?_, ?_⟩
  · exact non_adjacent_pair_errors.1
      { identifier := "c1", tag := "c1", tensor := fun _ => 0,
        parent_leg := some ("root", 0), children_legs := [] }
      { identifier := "c2", tag := "c2", tensor := fun _ => 0,
        parent_leg := some ("root", 0), children_legs := [] } none none rfl rfl
  · exact non_adjacent_pair_errors.2
      { nodes := [{ identifier := "root", parent := none, children := ["c1", "c2"] },
                  { identifier := "c1", parent := some "root", children := [] },
                  { identifier := "c2", parent := some "root", children := [] }],
        root_id := some "root" } "c1" "c2"
      { identifier := "c1", parent := some "root", children := [] }
      { identifier := "c2", parent := some "root", children := [] }
      (by decide) (by decide) (by decide) (by decide)

/-- C6: moving the orthogonality center along an empty path, or along the
single-element path consisting of the current center, returns the state
unchanged: the same record — every node tensor, the center identifier and
every partial-tree cache entry — is handed back. -/
theorem move_orth_noop (moveStep : TDVPState → String → TDVPState)
    (cacheStep : TDVPState → String → String → TDVPState)
    (st : TDVPState) (path : List String)
    (h : path = [] ∨ path = [st.orthogonality_center_id]) :
    move_orth_and_update_cache_for_path moveStep cacheStep st path = .ok st := by
  rcases h with rfl | rfl
  · rfl
  · unfold move_orth_and_update_cache_for_path
    simp [walkPath]

/-- C6 witness: the no-op move applied to a concrete state with center c1 and
the single-element path [c1]. -/
theorem move_orth_noop_witness :
    ((["c1"] : List String) = [] ∨ (["c1"] : List String) =
      [({ orthogonality_center_id := "c1", tensors := fun _ _ => 0, cache := fun _ => none } :
          TDVPState).orthogonality_center_id])
    ∧ move_orth_and_update_cache_for_path (fun s _ => s) (fun s _ _ => s)
        { orthogonality_center_id := "c1", tensors := fun _ _ => 0, cache := fun _ => none }
        ["c1"]
        = .ok { orthogonality_center_id := "c1", tensors := fun _ _ => 0, cache := fun _ => none } :=
  ⟨Or.inr rfl,
    move_orth_noop (fun s _ => s) (fun s _ _ => s)
      { orthogonality_center_id := "c1", tensors := fun _ _ => 0, cache := fun _ => none }
      ["c1"] (Or.inr rfl)⟩

theorem build_splitting_other (items : List SplittingItem)
    (h : SplittingItem.other ∈ items) : build_splitting items = .error .typeError := by
  induction items with
  | nil => simp at h
  | cons x rest ih =>
    cases x with
    | other => rfl
    | int i =>
      have hr : SplittingItem.other ∈ rest := by
        simp only [List.mem_cons] at h
        rcases h with h | h
        · exact absurd h (by simp)
        · exact h
      simp only [build_splitting, ih hr]
    | tuple p =>
      have hr : SplittingItem.other ∈ rest := by
        simp only [List.mem_cons] at h
        rcases h with h | h
        · exact absurd h (by simp)
        · exact h
      simp only [build_splitting, ih hr]

/-- C8: creating a TimeEvolution with a nonpositive time-step size or final
time raises a ValueError at construction, before any time step could run, and
creating a TrotterSplitting whose splitting list contains an item that is
neither an int nor a tuple raises a TypeError at construction. -/
theorem construction_fails_fast :
    (∀ dt T : ℚ, dt ≤ 0 ∨ T ≤ 0 → time_evolution_init dt T = .error .valueError)
    ∧ (∀ (num_products : ℕ) (items : List SplittingItem), SplittingItem.other ∈ items →
        trotter_splitting_init num_products (some items) = .error .typeError) := by
  constructor
  · intro dt T h
    unfold time_evolution_init
    rcases h with h | h
    · rw [if_pos h]
    · rcases le_or_lt dt 0 with h2 | h2
      · rw [if_pos h2]
      · rw [if_neg (not_le.2 h2), if_pos h]
  · intro np items h
    exact build_splitting_other items h

/-- C8 witness: the negative step size -1 with final time 1, and a splitting
list containing a non-int non-tuple item, both fail as stated. -/
theorem construction_fails_fast_witness :
    (((-1 : ℚ) ≤ 0 ∨ (1 : ℚ) ≤ 0) ∧ time_evolution_init (-1) 1 = .error .valueError)
    ∧ (SplittingItem.other ∈ [SplittingItem.int 0, SplittingItem.other]
        ∧ trotter_splitting_init 2 (some [SplittingItem.int 0, SplittingItem.other])
          = .error .typeError) :=
  ⟨⟨Or.inl (by norm_num), construction_fails_fast.1 (-1) 1 (Or.inl (by norm_num))⟩,
   ⟨by simp, construction_fails_fast.2 2 [SplittingItem.int 0, SplittingItem.other] (by simp)⟩⟩

/-- C9: the free function `transfer_tensor` never produces a transfer matrix:
for every input it only computes the conjugated copy and the new
identifier/tag strings and then terminates without a return statement, so it
returns None for all inputs. -/
theorem transfer_tensor_returns_none (node : TensorNode)
    (new_tag new_identifier : Option String) :
    transfer_tensor node new_tag new_identifier = none := rfl

/-- C10: constructing a SWAPlist with no argument (swap_list defaulting to
None) raises a TypeError, because the constructor iterates swap_list before
the None check that would replace it with an empty list; consequently a
TrotterStep with the default swaps_before/swaps_after of None also raises a
TypeError instead of producing empty SWAP lists. -/
theorem swaplist_none_type_error :
    swaplist_init none = .error .typeError
    ∧ (∀ swaps_after : Option (List (List String)),
        trotter_step_init none swaps_after = .error .typeError)
    ∧ (∀ swaps_before : List (List String),
        trotter_step_init (some swaps_before) none = .error .typeError) :=
  ⟨rfl, fun _ => rfl, fun _ => rfl⟩

theorem dictGet_eq_none {ns : List PyNode} {key : String} :
    dictGet ns key = none ↔ ∀ n ∈ ns, n.identifier ≠ key := by
  simp [dictGet, List.find?_eq_none]

theorem dictGet_some {ns : List PyNode} {key : String} {n : PyNode}
    (h : dictGet ns key = some n) : n ∈ ns ∧ n.identifier = key := by
  refine ⟨List.mem_of_find?_eq_some h, ?_⟩
  have := List.find?_some h
  simpa using this

theorem dictSet_not_present {ns : List PyNode} {node : PyNode}
    (h : ∀ n ∈ ns, n.identifier ≠ node.identifier) : dictSet ns node = ns ++ [node] := by
  have hany : ns.any (fun n => n.identifier == node.identifier) = false := by
    simp only [List.any_eq_false]
    intro n hn
    simpa using h n hn
  simp [dictSet, hany]

theorem dictSet_present {ns : List PyNode} {node : PyNode}
    (h : ns.any (fun n => n.identifier == node.identifier) = true) :
    dictSet ns node = ns.map (fun n => if n.identifier == node.identifier then node else n) := by
  simp [dictSet, h]

theorem keys_dictSet_present {ns : List PyNode} {node : PyNode}
    (h : ns.any (fun n => n.identifier == node.identifier) = true) :
    (dictSet ns node).map PyNode.identifier = ns.map PyNode.identifier := by
  rw [dictSet_present h, List.map_map]
  refine List.map_congr_left (fun n _ => ?_)
  by_cases hn : n.identifier = node.identifier
  · simp [hn]
  · simp [hn]

theorem add_root_preserves {t t2 : PyTree} {nid : String} (hinv : RootInv t)
    (h : add_root t { identifier := nid, parent := none, children := [] } = .ok t2) :
    RootInv t2 := by
  unfold add_root at h
  split at h
  · exact absurd h (by simp)
  · next hroot =>
    simp only [ne_eq, not_not] at hroot
    have hempty : t.nodes = [] := by
      rcases hinv.2 with ⟨_, he⟩ | ⟨r, hr, _, _⟩
      · exact he
      · rw [hroot] at hr
        exact absurd hr (by simp)
    injection h with h2
    subst h2
    constructor
    · simp [hempty, dictSet]
    · refine Or.inr ⟨nid, rfl, ?_, ?_⟩
      · exact ⟨{ identifier := nid, parent := none, children := [] },
          by simp [hempty, dictSet], rfl⟩
      · intro n hn
        simp only [hempty] at hn
        simp only [dictSet, List.any_nil, Bool.false_eq_true, if_false, List.nil_append,
          List.mem_singleton] at hn
        subst hn
        simp

theorem add_child_preserves {t t2 : PyTree} {nid pid : String} (hinv : RootInv t)
    (h : add_child_to_parent t { identifier := nid, parent := none, children := [] } pid
      = .ok t2) : RootInv t2 := by
  unfold add_child_to_parent at h
  split at h
  · exact absurd h (by simp)
  · next hpid =>
    split at h
    · exact absurd h (by simp)
    · next hfresh =>
      split at h
      · exact absurd h (by simp)
      · split at h
        · exact absurd h (by simp)
        · next parent hm =>
          injection h with h2
          subst h2
          have hfresh2 : ∀ n ∈ t.nodes, n.identifier ≠ nid := by
            have hnone : dictGet t.nodes nid = none := by simpa using hfresh
            exact dictGet_eq_none.1 hnone
          have hchild2 :
              dictSet t.nodes { identifier := nid, parent := some pid, children := [] }
                = t.nodes ++ [({ identifier := nid, parent := some pid, children := [] } : PyNode)] :=
            dictSet_not_present hfresh2
          obtain ⟨q, hqmem, hqid⟩ : ∃ q ∈ t.nodes, q.identifier = pid := by
            rcases hg : dictGet t.nodes pid with _ | q
            · rw [hg] at hpid
              simp at hpid
            · exact ⟨q, (dictGet_some hg).1, (dictGet_some hg).2⟩
          have hpidnid : pid ≠ nid := hqid ▸ hfresh2 q hqmem
          simp only [child_with_parent] at hm ⊢
          rw [hchild2] at hm
          obtain ⟨hparent_mem0, hparent_id⟩ := dictGet_some hm
          have hparent_mem : parent ∈ t.nodes := by
            rcases List.mem_append.1 hparent_mem0 with hp | hp
            · exact hp
            · simp only [List.mem_singleton] at hp
              subst hp
              exact absurd hparent_id hpidnid.symm
          rw [hchild2]
          have hpres : (t.nodes ++ [({ identifier := nid, parent := some pid, children := [] } : PyNode)]).any
              (fun n => n.identifier ==
                ({ parent with children := parent.children ++ [nid] } : PyNode).identifier)
              = true := by
            simp only [List.any_eq_true]
            exact ⟨parent, hparent_mem0, by simp⟩
          have hkeys : (dictSet (t.nodes ++ [({ identifier := nid, parent := some pid, children := [] } : PyNode)])
                ({ parent with children := parent.children ++ [nid] } : PyNode)).map PyNode.identifier
              = t.nodes.map PyNode.identifier ++ [nid] := by
            rw [keys_dictSet_present hpres, List.map_append]
            simp
          have hsetmap := dictSet_present hpres
          constructor
          · show (dictSet _ _).map PyNode.identifier |>.Nodup
            rw [hkeys]
            have hnin : nid ∉ t.nodes.map PyNode.identifier := by
              simp only [List.mem_map, not_exists]
              intro n
              intro hcontra
              exact absurd hcontra.2 (hfresh2 n hcontra.1)
            simp only [List.nodup_append, List.nodup_singleton, List.disjoint_singleton]
            exact ⟨hinv.1, by trivial, by simpa using hnin⟩
          · rcases hinv.2 with ⟨_, he⟩ | ⟨r, hr, ⟨rn, hrnmem, hrnid⟩, hiff⟩
            · rw [he] at hqmem
              exact absurd hqmem (List.not_mem_nil q)
            · have hrnid2 : r ≠ nid := hrnid ▸ hfresh2 rn hrnmem
              refine Or.inr ⟨r, by simpa using hr, ?_, ?_⟩
              · by_cases hrp : r = pid
                · refine ⟨{ parent with children := parent.children ++ [nid] }, ?_, ?_⟩
                  · show _ ∈ dictSet _ _
                    rw [hsetmap]
                    exact List.mem_map.2 ⟨parent, hparent_mem0, by simp⟩
                  · simpa using hrp ▸ hparent_id.symm ▸ rfl
                · refine ⟨rn, ?_, hrnid⟩
                  show _ ∈ dictSet _ _
                  rw [hsetmap]
                  refine List.mem_map.2 ⟨rn, List.mem_append_left _ hrnmem, ?_⟩
                  have : rn.identifier ≠ parent.identifier := by
                    rw [hparent_id, hrnid]
                    exact hrp
                  simp [this]
              · intro n hn
                rw [hsetmap] at hn
                obtain ⟨m, hm2, rfl⟩ := List.mem_map.1 hn
                rcases List.mem_append.1 hm2 with hmt | hmc
                · by_cases hmp : m.identifier = parent.identifier
                  · rw [if_pos (by simpa using hmp)]
                    have htr := hiff parent hparent_mem
                    simpa using htr
                  · rw [if_neg (by simpa using hmp)]
                    exact hiff m hmt
                · simp only [List.mem_singleton] at hmc
                  subst hmc
                  have hne : ¬((nid : String) = parent.identifier) := by
                    rw [hparent_id]
                    exact hpidnid.symm
                  rw [if_neg (by simpa using hne)]
                  constructor
                  · intro hcontra
                    exact absurd hcontra (by simp)
                  · intro hcontra
                    exact absurd hcontra.symm hrnid2

theorem add_parent_preserves {t t2 : PyTree} {nid : String} (hinv : RootInv t)
    (h : add_parent_to_root t { identifier := nid, parent := none, children := [] } = .ok t2) :
    RootInv t2 := by
  unfold add_parent_to_root at h
  split at h
  · exact absurd h (by simp)
  · next hfresh =>
    split at h
    · exact absurd h (by simp)
    · next r hr =>
      split at h
      · exact absurd h (by simp)
      · next current_root hcr =>
        split at h
        · exact absurd h (by simp)
        · next hcrparent =>
          injection h with h2
          subst h2
          simp only [not_not] at hcrparent
          have hfresh2 : ∀ n ∈ t.nodes, n.identifier ≠ nid := by
            have hnone : dictGet t.nodes nid = none := by simpa using hfresh
            exact dictGet_eq_none.1 hnone
          obtain ⟨hcrmem, hcrid⟩ := dictGet_some hcr
          have hrnid : r ≠ nid := hcrid ▸ hfresh2 current_root hcrmem
          obtain ⟨r1, hr1, _, hiff⟩ : ∃ r1, t.root_id = some r1 ∧
              (∃ n ∈ t.nodes, n.identifier = r1) ∧
              (∀ n ∈ t.nodes, n.parent = none ↔ n.identifier = r1) := by
            rcases hinv.2 with ⟨hnone, _⟩ | hcase
            · rw [hr] at hnone
              exact absurd hnone (by simp)
            · exact hcase
          have hr1r : r1 = r := by
            rw [hr] at hr1
            injection hr1 with h3
            exact h3.symm
          rw [hr1r] at hiff
          have hlayer : dictSet t.nodes ({ identifier := nid, parent := none, children := [] ++ [r] } : PyNode)
              = t.nodes ++ [({ identifier := nid, parent := none, children := [] ++ [r] } : PyNode)] :=
            dictSet_not_present hfresh2
          rw [show ({ identifier := ({ identifier := nid, parent := none, children := [] } : PyNode).identifier, parent := ({ identifier := nid, parent := none, children := [] } : PyNode).parent, children := ({ identifier := nid, parent := none, children := [] } : PyNode).children ++ [r] } : PyNode) = ({ identifier := nid, parent := none, children := [] ++ [r] } : PyNode) from rfl]
          rw [hlayer]
          have hpres : (t.nodes ++ [({ identifier := nid, parent := none, children := [] ++ [r] } : PyNode)]).any
              (fun n => n.identifier ==
                ({ current_root with parent := some nid } : PyNode).identifier) = true := by
            simp only [List.any_eq_true]
            exact ⟨current_root, List.mem_append_left _ hcrmem, by simp⟩
          have hsetmap := dictSet_present hpres
          constructor
          · show (dictSet _ _).map PyNode.identifier |>.Nodup
            rw [keys_dictSet_present hpres, List.map_append]
            have hnin : nid ∉ t.nodes.map PyNode.identifier := by
              simp only [List.mem_map, not_exists]
              intro n hcontra
              exact absurd hcontra.2 (hfresh2 n hcontra.1)
            simp only [List.map_cons, List.map_nil]
            simp only [List.nodup_append, List.nodup_singleton, List.disjoint_singleton]
            refine ⟨hinv.1, by simp, by simpa using hnin⟩
          · refine Or.inr ⟨nid, rfl, ?_, ?_⟩
            · refine ⟨{ identifier := nid, parent := none, children := [] ++ [r] }, ?_, rfl⟩
              show _ ∈ dictSet _ _
              rw [hsetmap]
              refine List.mem_map.2 ⟨{ identifier := nid, parent := none, children := [] ++ [r] },
                List.mem_append_right _ (by simp), ?_⟩
              have : ¬((nid : String) = current_root.identifier) := by
                rw [hcrid]
                exact (Ne.symm hrnid)
              rw [if_neg (by simpa using this)]
            · intro n hn
              rw [hsetmap] at hn
              obtain ⟨m, hm2, rfl⟩ := List.mem_map.1 hn
              rcases List.mem_append.1 hm2 with hmt | hmc
              · by_cases hmp : m.identifier = current_root.identifier
                · rw [if_pos (by simpa using hmp)]
                  constructor
                  · intro hcontra
                    exact absurd hcontra (by simp)
                  · intro hcontra
                    exact absurd (hcontra ▸ hcrid.symm ▸ rfl : current_root.identifier = nid)
                      (hcrid.symm ▸ hrnid)
                · rw [if_neg (by simpa using hmp)]
                  have := hiff m hmt
                  constructor
                  · intro hp
                    exact absurd (this.1 hp) (by rw [hcrid] at hmp; exact hmp)
                  · intro hp
                    exact absurd hp (hfresh2 m hmt)
              · simp only [List.mem_singleton] at hmc
                subst hmc
                have : ¬((nid : String) = current_root.identifier) := by
                  rw [hcrid]
                  exact (Ne.symm hrnid)
                rw [if_neg (by simpa using this)]
                simp

theorem rootInv_of_reachAdd {t : PyTree} (h : ReachAdd t) : RootInv t := by
  induction h with
  | empty => exact ⟨by simp, Or.inl ⟨rfl, rfl⟩⟩
  | root _ hok ih => exact add_root_preserves ih hok
  | child _ hok ih => exact add_child_preserves ih hok
  | parentRoot _ hok ih => exact add_parent_preserves ih hok

theorem rootInv_exactly_one {t : PyTree} (h : RootInv t) (hne : t.nodes ≠ []) :
    ∃ r, t.root_id = some r ∧ t.nodes.countP (fun n => n.parent == none) = 1 ∧
      ∀ n ∈ t.nodes, n.parent = none → n.identifier = r := by
  obtain ⟨hnodup, hcase⟩ := h
  rcases hcase with ⟨_, hempty⟩ | ⟨r, hr, ⟨rn, hrmem, hrid⟩, hiff⟩
  · exact absurd hempty hne
  refine ⟨r, hr, ?_, fun n hn hp => (hiff n hn).1 hp⟩
  have hcongr : t.nodes.countP (fun n => n.parent == none)
      = t.nodes.countP (fun n => n.identifier == r) := by
    refine List.countP_congr (fun n hn => ?_)
    have := hiff n hn
    constructor
    · intro hb
      have : n.identifier = r := this.1 (by simpa using hb)
      simpa using this
    · intro hb
      have : n.parent = none := this.2 (by simpa using hb)
      simpa using this
  have hmap : t.nodes.countP (fun n => n.identifier == r)
      = (t.nodes.map PyNode.identifier).count r := by
    rw [List.count, List.countP_map]
    rfl
  have hone : (t.nodes.map PyNode.identifier).count r = 1 :=
    List.count_eq_one_of_mem hnodup (List.mem_map.2 ⟨rn, hrmem, hrid⟩)
  rw [hcongr, hmap, hone]

/-- C7 (amended): every TreeStructure reachable from an empty tree through
the public mutators `add_root`, `add_child_to_parent` and
`add_parent_to_root` contains exactly one node without a parent, and that
node's identifier equals the tree's root identifier; each of these mutators
preserves the invariant. The original claim also covered `combine_nodes` and
`split_node`; those can break the invariant when called with arguments
outside their documented contracts (see the counterexample), so they are
excluded here. -/
theorem tree_structure_root_invariant_amended (t : PyTree) (h : ReachAdd t)
    (hne : t.nodes ≠ []) :
    ∃ r, t.root_id = some r ∧ t.nodes.countP (fun n => n.parent == none) = 1 ∧
      ∀ n ∈ t.nodes, n.parent = none → n.identifier = r :=
  rootInv_exactly_one (rootInv_of_reachAdd h) hne

/-- C7 witness: the invariant instantiated on the one-node tree produced by
`add_root` on the empty tree. -/
theorem tree_structure_root_invariant_amended_witness :
    ReachAdd treeCex1 ∧ treeCex1.nodes ≠ [] ∧
      ∃ r, treeCex1.root_id = some r ∧
        treeCex1.nodes.countP (fun n => n.parent == none) = 1 ∧
        ∀ n ∈ treeCex1.nodes, n.parent = none → n.identifier = r := by
  have hreach : ReachAdd treeCex1 :=
    @ReachAdd.root { nodes := [], root_id := none } treeCex1 "R" ReachAdd.empty rfl
  exact ⟨hreach, by decide, tree_structure_root_invariant_amended treeCex1 hreach (by decide)⟩

/-- C7 counterexample: the state `treeCex3` is reachable from the empty tree
through public mutators (`add_root`, `add_child_to_parent`, then `split_node`
with a neighbours list naming the non-neighbour R), yet it contains zero
nodes without a parent while its root identifier still names R: the claimed
invariant fails for the full mutator set. -/
theorem tree_structure_root_invariant_counterexample :
    Reach treeCex3 ∧ treeCex3.nodes.countP (fun n => n.parent == none) = 0 ∧
      treeCex3.root_id = some "R" := by
  have h1 : Reach treeCex1 :=
    @Reach.root { nodes := [], root_id := none } treeCex1 "R" Reach.empty rfl
  have h2 : Reach treeCex2 := @Reach.child treeCex1 treeCex2 "A" "R" h1 rfl
  have h3 : Reach treeCex3 :=
    @Reach.split treeCex2 treeCex3 "A" "A1" "A2" ["R"] ["R"] h2 rfl
  exact ⟨h3, by decide, by decide⟩
